import Mathlib

/-!
Shallow embedding of `tools/mk_combined_img.py` (GrapheneOS
device_generic_goldfish): a build-time tool that assembles partition image
files into a single disk image and writes a GPT describing the layout.

Modelling conventions:
* Python strings are `List Char`; file contents are `List Nat` (byte values).
* The filesystem is a total function `List Char → List Nat` from path to
  content (so `os.path.getsize p` is `(fs p).length`); this corresponds to
  runs in which every referenced source file exists.
* External collaborators (`simg2img`) are parameters; `dd` and `sgdisk`
  effects are modelled explicitly where a claim needs them.
* Python exceptions that the script does not catch are modelled with
  `Option`/`Except` results.
-/

namespace MkCombinedImg

abbrev Str := List Char

/-- 1 MiB, the block size (`ibs=1024k`/`obs=1024k`/`bs=1024k`) used by every
`dd` invocation in the script. -/
def MiB : Nat := 1048576

/-- ASCII whitespace as recognised by Python's `str.strip()` / `str.split()`
(the script's manifests are ASCII text). -/
def pyIsSpace (c : Char) : Bool :=
  c = ' ' || c = '\t' || c = '\n' || c = '\r' || c = '\x0b' || c = '\x0c'

/-- Python `line.strip()`: remove leading and trailing whitespace. -/
def pyStrip (s : Str) : Str :=
  ((s.dropWhile pyIsSpace).reverse.dropWhile pyIsSpace).reverse

/-- Helper for `pySplit`: accumulates the current token (reversed). -/
def pySplitAux : Str → Str → List Str
  | [], acc => if acc.isEmpty then [] else [acc.reverse]
  | c :: rest, acc =>
    if pyIsSpace c then
      if acc.isEmpty then pySplitAux rest []
      else acc.reverse :: pySplitAux rest []
    else pySplitAux rest (c :: acc)

/-- Python `line.split()` with no argument: split on runs of whitespace,
returning no empty tokens. -/
def pySplit (s : Str) : List Str := pySplitAux s []

/-- Value of a decimal digit string; `none` when empty or containing a
non-digit.  (Python's `int()` additionally allows surrounding whitespace and
underscores between digits; tokens produced by `split()` contain no
whitespace, and no claim involves underscore literals.) -/
def digitsVal? (s : Str) : Option Nat :=
  match s with
  | [] => none
  | _ => s.foldl
      (fun acc c =>
        match acc with
        | some a => if '0' ≤ c ∧ c ≤ '9' then some (a * 10 + (c.toNat - 48)) else none
        | none => none)
      (some 0)

/-- Python `int(tok)` on a whitespace-free token: optional sign followed by
decimal digits; `none` models the `ValueError` caught at source line 52. -/
def pyInt? (s : Str) : Option Int :=
  match s with
  | '+' :: rest => (digitsVal? rest).map (fun k => (k : Int))
  | '-' :: rest => (digitsVal? rest).map (fun k => -(k : Int))
  | _ => (digitsVal? s).map (fun k => (k : Int))

/-- Source lines 29-38: strip the line, skip it when empty or starting with
`#`, split on whitespace, and keep it only when it yields exactly 3 tokens
`(path, label, number)`.  The loop at lines 35-37
(`for param in params: param = os.path.expandvars(param)`) only rebinds the
loop variable and then discards it, so `params` is appended to
`parsed_lines` unchanged: no environment expansion is applied to the stored
tokens. -/
def isDirective? (line : Str) : Option (Str × Str × Str) :=
  let s := pyStrip line
  if s = [] then none
  else if s.head? = some '#' then none
  else
    match pySplit s with
    | [a, b, c] => some (a, b, c)
    | _ => none

/-- The manifest's directive lines (3-token, non-blank, non-comment), in file
order. -/
def directives (lines : List Str) : List (Str × Str × Str) :=
  lines.filterMap isDirective?

/-- One parsed partition record (the dict built at source lines 43-51), with
`sizeByMb` kept as a number (the script stores `str(...)` of it). -/
structure Partition where
  path : Str
  label : Str
  sizeByMb : Nat
  num : Int
deriving DecidableEq, Repr

/-- The three fatal parse errors (`sys.exit` calls at source lines 53, 57
and 62). -/
inductive ParseError where
  | invalidNumberFormat : Str → ParseError
  | outOfRange : Int → ParseError
  | duplicate : Int → ParseError
deriving DecidableEq, Repr

/-- Source lines 43-51: build the partition record for one directive.
`sizeByMb` is `math.ceil(os.path.getsize(path) / 1024 / 1024)`, i.e. the
ceiling of the byte size divided by 1 MiB (the two float divisions are exact
for any realistic file size). -/
def mkPartition (sz : Str → Nat) (d : Str × Str × Str) (n : Int) : Partition :=
  { path := d.1, label := d.2.1, sizeByMb := (sz d.1 + (MiB - 1)) / MiB, num := n }

/-- Source lines 42-64: process the directive list in order, carrying the set
`num_used` of partition numbers already seen.  Per directive: parse the
number (`int`, line 51), reject it when `num > len(lines) or num < 0`
(line 56), reject it when already used (line 61), else record it.
`total` is `len(lines)`, the raw line count of the manifest file. -/
def parseDirectives (sz : Str → Nat) (total : Nat) :
    List (Str × Str × Str) → List Int → Except ParseError (List Partition)
  | [], _ => .ok []
  | d :: rest, used =>
    match pyInt? d.2.2 with
    | none => .error (.invalidNumberFormat d.2.2)
    | some n =>
      if (total : Int) < n ∨ n < 0 then .error (.outOfRange n)
      else if n ∈ used then .error (.duplicate n)
      else
        match parseDirectives sz total rest (n :: used) with
        | .error e => .error e
        | .ok ps => .ok (mkPartition sz d n :: ps)

/-- The sort key of `partitions.sort(key=operator.itemgetter("num"))`. -/
def numLE (a b : Partition) : Prop := a.num ≤ b.num

instance : DecidableRel numLE := fun a b => Int.decLe a.num b.num

instance : IsTotal Partition numLE := ⟨fun a b => Int.le_total a.num b.num⟩

instance : IsTrans Partition numLE := ⟨fun _ _ _ h1 h2 => Int.le_trans h1 h2⟩

/-- Source lines 26-67, `parse_input`: filter the directive lines, validate
them in order, and return the accepted partitions sorted ascending by
`num` (Python's stable sort, modelled by insertion sort). -/
def parse_input (sz : Str → Nat) (lines : List Str) :
    Except ParseError (List Partition) :=
  match parseDirectives sz lines.length (directives lines) [] with
  | .error e => .error e
  | .ok ps => .ok (List.insertionSort numLE ps)

/-- `a*256 + b` folded over a byte string: the value of
`int(codecs.encode(bytes, 'hex'), 16)`, i.e. the bytes read as a big-endian
base-256 integer. -/
def bytesBE (l : List Nat) : Nat := l.foldl (fun a b => a * 256 + b) 0

/-- Source lines 13-19, `check_sparse`: read the first 4 bytes, reverse
them, and compare their big-endian value with the sparse-image magic
3978755898 (= 0xED26FF3A).  When the file is empty, `word[::-1]` is empty,
its hex encoding is the empty string, and `int('', 16)` raises an uncaught
`ValueError`: modelled as `none`. -/
def check_sparse (fs : Str → List Nat) (filename : Str) : Option Bool :=
  let word := (fs filename).take 4
  if word = [] then none
  else some (decide (bytesBE word.reverse = 3978755898))

/-- Ceiling division by 1 MiB (number of 1 MiB blocks `dd` with
`ibs=1024k`/`conv=sync` reads, the last block zero-padded). -/
def ceilMiB (n : Nat) : Nat := (n + (MiB - 1)) / MiB

/-- Output file size after
`dd if=src of=out conv=notrunc,sync ibs=1024k obs=1024k seek=seekBlocks`
(source lines 70-76): `dd` writes `ceilMiB srcLen` whole 1 MiB blocks at
byte offset `seekBlocks * MiB` without truncating, so the file size becomes
the maximum of the old size and the end of the written span.  An empty
source writes no blocks and leaves the size unchanged. -/
def ddSizeAfter (cur srcLen seekBlocks : Nat) : Nat :=
  if srcLen = 0 then cur else max cur (seekBlocks * MiB + ceilMiB srcLen * MiB)

/-- The raw bytes the composition loop copies for a partition: the source
file itself, or — when `check_sparse` reports sparse — the output of the
external `simg2img` collaborator on it (source lines 79-85,
`unsparse_partition`, which writes to a fresh temp file).  `none` models the
uncaught exception `check_sparse` raises on an empty file. -/
def materialize (fs : Str → List Nat) (simg : List Nat → List Nat)
    (p : Partition) : Option (List Nat) :=
  match check_sparse fs p.path with
  | none => none
  | some true => some (simg (fs p.path))
  | some false => some (fs p.path)

/-- A partition after composition: the dict as extended by the loop at
source lines 161-172 (`start`, `end` keys, stored there as strings) with
`isTemp` recording whether the `fd`/temp-file keys were added by
`unsparse_partition`. -/
structure Placed where
  part : Partition
  isTemp : Bool
  start : Nat
  endS : Nat
deriving DecidableEq, Repr

/-- Source lines 161-172, the general composition loop.  Per partition:
`offset = os.path.getsize(output)`; `start = offset // 512`; unsparse when
sparse; `write_partition` with `seek = offset // 1024 // 1024`; then
`end = os.path.getsize(output) // 512 - 1`.  `size` is the current output
file size in bytes (initially 1 MiB: line 159 creates the output as one
zero block).  `none` models the abort when `check_sparse` raises. -/
def composeLoop (fs : Str → List Nat) (simg : List Nat → List Nat) :
    List Partition → Nat → Option (List Placed)
  | [], _ => some []
  | p :: rest, size =>
    match check_sparse fs p.path with
    | none => none
    | some sp =>
      let bytes := if sp then simg (fs p.path) else fs p.path
      let newSize := ddSizeAfter size bytes.length (size / 1024 / 1024)
      match composeLoop fs simg rest newSize with
      | none => none
      | some qs =>
        some ({ part := p, isTemp := sp, start := size / 512,
                endS := newSize / 512 - 1 } :: qs)

/-- The output file sizes (before the copy, after the copy) observed for
each partition of the general composition loop, in order: the values of
`os.path.getsize(output_filename)` at source lines 162 and 171. -/
def sizeTrace (fs : Str → List Nat) (simg : List Nat → List Nat) :
    List Partition → Nat → List (Nat × Nat)
  | [], _ => []
  | p :: rest, size =>
    match check_sparse fs p.path with
    | none => []
    | some sp =>
      let bytes := if sp then simg (fs p.path) else fs p.path
      let newSize := ddSizeAfter size bytes.length (size / 1024 / 1024)
      (size, newSize) :: sizeTrace fs simg rest newSize

/-- One `sgdisk` partition-table operation issued by the script. -/
inductive TableOp where
  | clear : TableOp
  | addEntry (num : Int) (label : Str) (start endS : Nat) (typeCode : Nat) : TableOp
deriving DecidableEq, Repr

/-- Source lines 94-104, `add_partition`: one `sgdisk` invocation
`--new=num:start:end --type=num:8300 --change-name=num:label`. -/
def entryOf (q : Placed) : TableOp :=
  .addEntry q.part.num q.part.label q.start q.endS 8300

/-- Source lines 183-186: `clear_partition_table` (one `sgdisk --clear`)
followed by one `add_partition` per element of the composed partition list,
in list order.  (The padding `dd` at lines 177-179 does not touch the
table.) -/
def writeTable (placed : List Placed) : List TableOp :=
  .clear :: placed.map entryOf

/-- Byte-level model of
`dd if=src of=out conv=notrunc,sync bs=1024k seek=seekBlocks`: bytes inside
the written span come from the source (zero-padded past its length), bytes
outside it are left untouched; the image is a total byte map. -/
def ddWrite (img : Nat → Nat) (srcLen : Nat) (src : Nat → Nat)
    (seekBlocks : Nat) : Nat → Nat :=
  fun i =>
    if seekBlocks * MiB ≤ i ∧ i < seekBlocks * MiB + ceilMiB srcLen * MiB then
      (if i - seekBlocks * MiB < srcLen then src (i - seekBlocks * MiB) else 0)
    else img i

/-- The bytes the general algorithm (lines 159-172) places for a
two-partition manifest with non-sparse sources of sizes `s0`, `s1` and byte
maps `f0`, `f1`: partition 1 at 1 MiB (the first copy's seek is
`MiB // MiB = 1`), partition 2 at `1 + ceilMiB s0` MiB (the output has
grown to `(1 + ceilMiB s0) * MiB` bytes).  The image starts as the 1 MiB
zero stub of line 159 (zero beyond it as well; only written spans are
compared). -/
def generalTwoImg (s0 s1 : Nat) (f0 f1 : Nat → Nat) : Nat → Nat :=
  ddWrite (ddWrite (fun _ => 0) s0 f0 1) s1 f1 (1 + ceilMiB s0)

/-- Source lines 134-139, the pre-existing-output shortcut: `dd` partition 1
with `seek=1` and partition 2 with the fixed `seek=2`, over the existing
output bytes `base`. -/
def shortcutExistingImg (base : Nat → Nat) (s0 s1 : Nat) (f0 f1 : Nat → Nat) :
    Nat → Nat :=
  ddWrite (ddWrite base s0 f0 1) s1 f1 2

/-- Source line 143: the prebuilt GPT header path, `dir + "/head.img"`. -/
def gpt_head_name (dir : Str) : Str := dir ++ "/head.img".toList

/-- Source line 144, verbatim: the variable `gpt_tail` is assigned
`prebuilt_gpt_dir + "/head.img"` — the header file again, not
`tail.img`. -/
def gpt_tail_name (dir : Str) : Str := dir ++ "/head.img".toList

/-- Source lines 185-190: for each composed partition in order, invoke
`add_partition` (a `shell_command` with `check=True`; a failing invocation
raises `CalledProcessError`, which nothing catches, so the process exits at
once), then, if the partition was sparse-materialized (`'fd' in
partition`), close its fd and remove its temp file.  `addOk q` says whether
the `sgdisk` call for `q` succeeds; the result is the list of partitions
whose temp file was closed and removed before the process exited. -/
def cleanupRun (addOk : Placed → Bool) : List Placed → List Placed
  | [] => []
  | q :: rest =>
    if addOk q then
      if q.isTemp then q :: cleanupRun addOk rest else cleanupRun addOk rest
    else []

/-- Characters allowed in a `$NAME` environment reference
(`os.path.expandvars`): letters, digits and underscore. -/
def isVarChar (c : Char) : Bool := c.isAlphanum || c = '_'

/-- Modelled from the spec: `os.path.expandvars` is Python library code not
part of this repository; the spec says a token such as `$OUT/system.img`
resolves its environment reference against the process environment before
use.  This models the expansion of a token with one leading `$NAME`
reference (all the spec's examples have this shape): the longest run of
name characters after `$` is looked up in `env` and replaced by its value
when set; any other token is returned unchanged. -/
def expandToken (env : Str → Option Str) (tok : Str) : Str :=
  match tok with
  | '$' :: rest =>
    (match env (rest.takeWhile isVarChar) with
     | some v => v ++ rest.drop (rest.takeWhile isVarChar).length
     | none => tok)
  | _ => tok

/-! ### Concrete inputs used to instantiate the theorems -/

/-- A size oracle for manifests whose file sizes are irrelevant. -/
def szZero : Str → Nat := fun _ => 0

/-- A concrete filesystem: `a.img` is a 3-byte non-sparse image, `b.img` a
5-byte file starting with the little-endian sparse magic
`3A FF 26 ED`. -/
def fsW : Str → List Nat := fun p =>
  if p = "a.img".toList then [1, 2, 3]
  else if p = "b.img".toList then [58, 255, 38, 237, 9]
  else []

/-- A concrete `simg2img` collaborator producing a 5-byte raw image. -/
def simgW : List Nat → List Nat := fun _ => [7, 7, 7, 7, 7]

/-- A concrete two-partition manifest (declared out of numeric order). -/
def linesW : List Str := ["b.img vendor 2", "a.img system 1"].map String.toList

def partSystemW : Partition :=
  { path := "a.img".toList, label := "system".toList, sizeByMb := 1, num := 1 }

def partVendorW : Partition :=
  { path := "b.img".toList, label := "vendor".toList, sizeByMb := 1, num := 2 }

/-- `parse_input` on `linesW` (checked by `rfl` in the theorems below). -/
def psW : List Partition := [partSystemW, partVendorW]

/-- `composeLoop` on `psW` over `fsW`/`simgW`: `a.img` occupies sectors
2048-4095, the materialized `b.img` sectors 4096-6143. -/
def placedW : List Placed :=
  [{ part := partSystemW, isTemp := false, start := 2048, endS := 4095 },
   { part := partVendorW, isTemp := true, start := 4096, endS := 6143 }]

/-- Manifest whose single directive declares partition number 0. -/
def linesC8 : List Str := ["a.img foo 0".toList]

/-- The record the parser accepts for `linesC8`. -/
def pC8 : Partition :=
  { path := "a.img".toList, label := "foo".toList, sizeByMb := 0, num := 0 }

/-- An environment with `OUT=/tmp/out` set. -/
def envC4 : Str → Option Str :=
  fun s => if s = "OUT".toList then some "/tmp/out".toList else none

/-- Manifest whose directive's path token carries an environment
reference. -/
def linesC4 : List Str := ["$OUT/system.img system 1".toList]

/-- The record the parser returns for `linesC4`: the path token is stored
verbatim, unexpanded. -/
def pC4 : Partition :=
  { path := "$OUT/system.img".toList, label := "system".toList,
    sizeByMb := 0, num := 1 }

/-- A 3-line manifest whose second directive duplicates number 1 while its
third directive declares the out-of-range number 9. -/
def linesC7 : List Str := ["a b 1", "c d 1", "e f 9"].map String.toList

/-- A composed partition whose source was sparse-materialized. -/
def qW : Placed :=
  { part := { path := "p.img".toList, label := "p".toList, sizeByMb := 1, num := 1 },
    isTemp := true, start := 2048, endS := 4095 }

end MkCombinedImg

namespace MkCombinedImg

/-! ### Helper lemmas -/

/-- Destructor for a successful `parseDirectives` step: the head directive's
number parses, is in range, is fresh, and the tail parses with it marked
used. -/
theorem parseDirectives_cons_ok {sz : Str → Nat} {total : Nat}
    {d : Str × Str × Str} {ds : List (Str × Str × Str)} {used : List Int}
    {l : List Partition}
    (h : parseDirectives sz total (d :: ds) used = .ok l) :
    ∃ n ps, pyInt? d.2.2 = some n ∧ ¬((total : Int) < n ∨ n < 0) ∧ n ∉ used ∧
      parseDirectives sz total ds (n :: used) = .ok ps ∧
      l = mkPartition sz d n :: ps := by
  unfold parseDirectives at h
  split at h
  · exact absurd h (by simp)
  · next n hpy =>
    split at h
    · exact absurd h (by simp)
    · next hr =>
      split at h
      · exact absurd h (by simp)
      · next hu =>
        split at h
        · exact absurd h (by simp)
        · next ps hrec =>
          exact ⟨n, ps, hpy, hr, hu, hrec, by simpa using h.symm⟩

/-- Converse construction: a fresh, in-range head followed by a successful
tail yields a successful step. -/
theorem parseDirectives_cons_ok_of {sz : Str → Nat} {total : Nat}
    {d : Str × Str × Str} {ds : List (Str × Str × Str)} {used : List Int}
    {n : Int} {ps : List Partition}
    (hpy : pyInt? d.2.2 = some n) (hr : ¬((total : Int) < n ∨ n < 0))
    (hu : n ∉ used) (hrec : parseDirectives sz total ds (n :: used) = .ok ps) :
    parseDirectives sz total (d :: ds) used = .ok (mkPartition sz d n :: ps) := by
  unfold parseDirectives
  rw [hpy]
  simp only [if_neg hr, if_neg hu, hrec]

/-- A successful parse accepts every directive in order: the result pairs
with the directive list. -/
theorem parseDirectives_ok_forall₂ {sz : Str → Nat} {total : Nat} :
    ∀ {ds : List (Str × Str × Str)} {used : List Int} {l : List Partition},
      parseDirectives sz total ds used = .ok l →
      List.Forall₂ (fun d p => p = mkPartition sz d p.num ∧
        pyInt? d.2.2 = some p.num ∧ ¬((total : Int) < p.num ∨ p.num < 0)) ds l
  | [], _, _, h => by
    unfold parseDirectives at h
    obtain rfl : _ = ([] : List Partition) := by simpa using h.symm
    exact .nil
  | d :: ds, used, l, h => by
    obtain ⟨n, ps, hpy, hr, _, hrec, rfl⟩ := parseDirectives_cons_ok h
    exact .cons ⟨rfl, hpy, hr⟩ (parseDirectives_ok_forall₂ hrec)

/-- The numbers a successful parse returns avoid the carried `used` set and
are pairwise distinct. -/
theorem parseDirectives_ok_nums {sz : Str → Nat} {total : Nat} :
    ∀ {ds : List (Str × Str × Str)} {used : List Int} {l : List Partition},
      parseDirectives sz total ds used = .ok l →
      (∀ p ∈ l, p.num ∉ used) ∧ (l.map (·.num)).Nodup
  | [], _, _, h => by
    unfold parseDirectives at h
    obtain rfl : _ = ([] : List Partition) := by simpa using h.symm
    simp
  | d :: ds, used, l, h => by
    obtain ⟨n, ps, _, _, hu, hrec, rfl⟩ := parseDirectives_cons_ok h
    obtain ⟨ih₁, ih₂⟩ := parseDirectives_ok_nums hrec
    constructor
    · intro p hp
      rcases List.mem_cons.mp hp with rfl | hp
      · exact hu
      · exact fun hmem => ih₁ p hp (List.mem_cons_of_mem _ hmem)
    · refine List.nodup_cons.mpr ⟨?_, ih₂⟩
      intro hmem
      obtain ⟨p, hp, hpn⟩ := List.mem_map.mp hmem
      exact ih₁ p hp (by simp [mkPartition, hpn])

/-- Destructor for a successful `composeLoop` step. -/
theorem composeLoop_cons_some {fs : Str → List Nat} {simg : List Nat → List Nat}
    {p : Partition} {rest : List Partition} {size : Nat} {placed : List Placed}
    (h : composeLoop fs simg (p :: rest) size = some placed) :
    ∃ sp qs, check_sparse fs p.path = some sp ∧
      composeLoop fs simg rest
        (ddSizeAfter size (if sp then simg (fs p.path) else fs p.path).length
          (size / 1024 / 1024)) = some qs ∧
      placed = { part := p, isTemp := sp, start := size / 512,
                 endS := ddSizeAfter size
                     (if sp then simg (fs p.path) else fs p.path).length
                     (size / 1024 / 1024) / 512 - 1 } :: qs := by
  unfold composeLoop at h
  cases hc : check_sparse fs p.path with
  | none => rw [hc] at h; dsimp only at h; exact absurd h (by simp)
  | some sp =>
    rw [hc] at h
    dsimp only at h
    cases hrec : composeLoop fs simg rest
        (ddSizeAfter size (if sp then simg (fs p.path) else fs p.path).length
          (size / 1024 / 1024)) with
    | none => rw [hrec] at h; dsimp only at h; exact absurd h (by simp)
    | some qs =>
      rw [hrec] at h
      dsimp only at h
      exact ⟨sp, qs, rfl, hrec, by simpa using h.symm⟩

/-- `composeLoop` consumes the partitions in order, returning one placement
per partition. -/
theorem composeLoop_parts {fs : Str → List Nat} {simg : List Nat → List Nat} :
    ∀ {ps : List Partition} {size : Nat} {placed : List Placed},
      composeLoop fs simg ps size = some placed →
      placed.map (·.part) = ps
  | [], _, _, h => by
    unfold composeLoop at h
    obtain rfl : _ = ([] : List Placed) := by simpa using h.symm
    rfl
  | p :: rest, size, placed, h => by
    obtain ⟨sp, qs, _, hrec, rfl⟩ := composeLoop_cons_some h
    simpa using composeLoop_parts hrec

/-! ### Claim theorems -/

/-- C6: for every source file of at least 4 bytes, `check_sparse` classifies
the file as sparse exactly when its first 4 bytes, reversed and read as a
big-endian (hex) integer, equal 0xED26FF3A = 3978755898, and classifies any
other such file as non-sparse. -/
theorem c6_sparse_magic (fs : Str → List Nat) (path : Str)
    (h : 4 ≤ (fs path).length) :
    (check_sparse fs path = some true ↔
      bytesBE ((fs path).take 4).reverse = 3978755898) ∧
    (bytesBE ((fs path).take 4).reverse ≠ 3978755898 →
      check_sparse fs path = some false) := by
  have hne : ¬((fs path).take 4 = []) := by
    rw [List.take_eq_nil_iff]
    rintro (h4 | hnil)
    · exact absurd h4 (by norm_num)
    · rw [hnil] at h; simp at h
  unfold check_sparse
  dsimp only
  rw [if_neg hne]
  refine ⟨?_, fun hmag => ?_⟩
  · simp [decide_eq_true_eq]
  · simp [decide_eq_false_iff_not, hmag]

/-- Witness for C6 at the concrete sparse file `b.img`. -/
theorem c6_sparse_magic_witness :
    4 ≤ (fsW "b.img".toList).length ∧
    ((check_sparse fsW "b.img".toList = some true ↔
      bytesBE ((fsW "b.img".toList).take 4).reverse = 3978755898) ∧
     (bytesBE ((fsW "b.img".toList).take 4).reverse ≠ 3978755898 →
      check_sparse fsW "b.img".toList = some false)) :=
  ⟨by decide, c6_sparse_magic fsW "b.img".toList (by decide)⟩

/-- C10: `check_sparse` raises (models as `none`) exactly on an empty source
file, and the general composition loop completes the per-partition scan
without that uncaught abort exactly when every partition's source file is
non-empty. -/
theorem c10_empty_source_aborts (fs : Str → List Nat)
    (simg : List Nat → List Nat) (ps : List Partition) (size : Nat) :
    (∀ path, check_sparse fs path = none ↔ fs path = []) ∧
    ((∃ placed, composeLoop fs simg ps size = some placed) ↔
      ∀ p ∈ ps, fs p.path ≠ []) := by
  have hcs : ∀ path, check_sparse fs path = none ↔ fs path = [] := by
    intro path
    unfold check_sparse
    dsimp only
    by_cases hnil : fs path = []
    · simp [hnil]
    · have hne : ¬((fs path).take 4 = []) := by
        rw [List.take_eq_nil_iff]; simp [hnil]
      rw [if_neg hne]
      simp [hnil]
  refine ⟨hcs, ?_⟩
  induction ps generalizing size with
  | nil => simp [composeLoop]
  | cons p rest ih =>
    simp only [composeLoop]
    cases hc : check_sparse fs p.path with
    | none =>
      simp [List.forall_mem_cons, (hcs p.path).mp hc]
    | some sp =>
      dsimp only
      cases hrec : composeLoop fs simg rest
          (ddSizeAfter size (if sp then simg (fs p.path) else fs p.path).length
            (size / 1024 / 1024)) with
      | none =>
        have h1 : ¬∀ q ∈ rest, fs q.path ≠ [] := by
          intro hall
          obtain ⟨placed, hp⟩ := (ih _).mpr hall
          rw [hrec] at hp
          exact Option.noConfusion hp
        constructor
        · rintro ⟨placed, hp⟩; exact Option.noConfusion hp
        · rintro hall; exact absurd (fun q hq => hall q (List.mem_cons_of_mem p hq)) h1
      | some qs =>
        have hne : fs p.path ≠ [] := by
          intro hnil
          have h2 := (hcs p.path).mpr hnil
          rw [hc] at h2
          exact Option.noConfusion h2
        have h2 : ∀ q ∈ rest, fs q.path ≠ [] := (ih _).mp ⟨qs, hrec⟩
        exact ⟨fun _ => List.forall_mem_cons.mpr ⟨hne, h2⟩, fun _ => ⟨_, rfl⟩⟩

/-- C8 (code bug): the parser accepts the directive `a.img foo 0`, returning
a partition whose number is 0, although its own error message declares the
valid range `[1..N]` (the range check at source line 56 only rejects
`num < 0`). -/
theorem c8_accepts_zero :
    parse_input szZero linesC8 = .ok [pC8] ∧ pC8.num = 0 :=
  ⟨rfl, rfl⟩

/-- C4 (code bug): for the directive `$OUT/system.img system 1` with
`OUT=/tmp/out` in the environment, the stored source path is the verbatim
token, not its expansion: the loop at source lines 35-37 rebinds the loop
variable and discards the expanded value. -/
theorem c4_expandvars_noop :
    parse_input szZero linesC4 = .ok [pC4] ∧
    pC4.path = "$OUT/system.img".toList ∧
    expandToken envC4 pC4.path = "/tmp/out/system.img".toList ∧
    pC4.path ≠ expandToken envC4 pC4.path :=
  ⟨rfl, rfl, rfl, by decide⟩

/-- C5 (code bug): with a 2 MiB partition 1 and a 1 MiB partition 2, the
pre-existing-output shortcut (fixed `seek=2`) puts partition 2's first byte
at offset 2 MiB, where the general algorithm keeps partition 1's bytes
(partition 2 would start at 3 MiB = 1 MiB + ceil(2 MiB)); and the prebuilt
template path's trailer file name is `head.img`, the header file, not a
trailer (source line 144). -/
theorem c5_fastpath_divergence :
    generalTwoImg (2 * MiB) MiB (fun _ => 1) (fun _ => 2) (2 * MiB) = 1 ∧
    shortcutExistingImg (fun _ => 0) (2 * MiB) MiB (fun _ => 1) (fun _ => 2)
      (2 * MiB) = 2 ∧
    ∀ dir, gpt_tail_name dir = gpt_head_name dir :=
  ⟨by decide, by decide, fun _ => rfl⟩

/-- C9 counterexample: a run whose single partition was sparse-materialized
and whose `add_partition` invocation fails removes no temp file before the
process exits, so the removed set differs from the created set. -/
theorem c9_cleanup_counterexample :
    cleanupRun (fun _ => false) [qW] = [] ∧
    [qW].filter (fun q => q.isTemp) = [qW] ∧
    ([] : List Placed) ≠ [qW] :=
  ⟨rfl, rfl, by decide⟩

/-- C9 (amended): when every `add_partition` invocation succeeds, the final
loop closes and removes exactly the temp files of the sparse-materialized
partitions. -/
theorem c9_cleanup_on_success (addOk : Placed → Bool) (placed : List Placed)
    (h : ∀ q ∈ placed, addOk q = true) :
    cleanupRun addOk placed = placed.filter (fun q => q.isTemp) := by
  induction placed with
  | nil => rfl
  | cons q rest ih =>
    unfold cleanupRun
    rw [if_pos (h q (List.mem_cons_self q rest))]
    have ih2 := ih (fun r hr => h r (List.mem_cons_of_mem q hr))
    by_cases ht : q.isTemp
    · simp [ht, ih2, List.filter_cons]
    · simp [ht, ih2, List.filter_cons]

/-- Witness for C9's amended claim on a concrete run. -/
theorem c9_cleanup_on_success_witness :
    (∀ q ∈ [qW], (fun _ : Placed => true) q = true) ∧
    cleanupRun (fun _ => true) [qW] = [qW].filter (fun q => q.isTemp) :=
  ⟨fun _ _ => rfl, c9_cleanup_on_success (fun _ => true) [qW] (fun _ _ => rfl)⟩

/-- The start/end sectors recorded by the composition loop, related to the
output-size trace: start = (size before the copy) / 512, end = (size after
the copy) / 512 - 1. -/
theorem composeLoop_sizes {fs : Str → List Nat} {simg : List Nat → List Nat} :
    ∀ {ps : List Partition} {size : Nat} {placed : List Placed},
      composeLoop fs simg ps size = some placed →
      placed.map (fun q => q.start) =
        (sizeTrace fs simg ps size).map (fun t => t.1 / 512) ∧
      placed.map (fun q => q.endS) =
        (sizeTrace fs simg ps size).map (fun t => t.2 / 512 - 1)
  | [], size, placed, h => by
    unfold composeLoop at h
    obtain rfl : _ = ([] : List Placed) := by simpa using h.symm
    simp [sizeTrace]
  | p :: rest, size, placed, h => by
    obtain ⟨sp, qs, hc, hrec, rfl⟩ := composeLoop_cons_some h
    obtain ⟨ih1, ih2⟩ := composeLoop_sizes hrec
    unfold sizeTrace
    rw [hc]
    dsimp only
    simp [ih1, ih2]

/-- C2: on the general composition path (output created as a 1 MiB zero
stub), each partition's recorded `startSector` is the output file byte size
immediately before its copy divided by 512, and its recorded `endSector` is
the size immediately after its copy divided by 512, minus 1 (integer
division throughout). -/
theorem c2_sector_bounds (fs : Str → List Nat) (simg : List Nat → List Nat)
    (ps : List Partition) (placed : List Placed)
    (h : composeLoop fs simg ps MiB = some placed) :
    placed.map (fun q => q.start) =
      (sizeTrace fs simg ps MiB).map (fun t => t.1 / 512) ∧
    placed.map (fun q => q.endS) =
      (sizeTrace fs simg ps MiB).map (fun t => t.2 / 512 - 1) :=
  composeLoop_sizes h

/-- Witness for C2 on the concrete two-partition run. -/
theorem c2_sector_bounds_witness :
    composeLoop fsW simgW psW MiB = some placedW ∧
    (placedW.map (fun q => q.start) =
      (sizeTrace fsW simgW psW MiB).map (fun t => t.1 / 512) ∧
     placedW.map (fun q => q.endS) =
      (sizeTrace fsW simgW psW MiB).map (fun t => t.2 / 512 - 1)) :=
  ⟨rfl, c2_sector_bounds fsW simgW psW placedW rfl⟩

/-- Alignment arithmetic: starting from a 1 MiB-aligned output size
`MiB * k`, the copy of a non-empty source of `len` bytes seeks to block `k`
and grows the output to exactly `MiB * (k + ceilMiB len)` bytes. -/
theorem ddSizeAfter_aligned {k len : Nat} (hlen : 1 ≤ len) :
    ddSizeAfter (MiB * k) len (MiB * k / 1024 / 1024) = MiB * (k + ceilMiB len) := by
  have hdiv : MiB * k / 1024 / 1024 = k := by
    rw [Nat.div_div_eq_div_mul]
    simp only [MiB]
    omega
  rw [hdiv]
  unfold ddSizeAfter
  rw [if_neg (by omega : ¬len = 0)]
  simp only [ceilMiB, MiB]
  omega

/-- Sector-range invariant of the general composition loop: starting from a
positive 1 MiB-aligned output size, every placement starts at or after the
current write position, occupies at least one sector, and consecutive
placements are strictly increasing and disjoint. -/
theorem composeLoop_bounds {fs : Str → List Nat} {simg : List Nat → List Nat} :
    ∀ {ps : List Partition} {size : Nat} {placed : List Placed},
      MiB ∣ size → 0 < size →
      composeLoop fs simg ps size = some placed →
      (∀ p ∈ ps, fs p.path ≠ []) →
      (∀ l, l ≠ [] → simg l ≠ []) →
      (∀ q ∈ placed, q.start ≤ q.endS ∧ size / 512 ≤ q.start) ∧
      List.Chain' (fun a b => a.endS < b.start) placed
  | [], _, placed, _, _, h, _, _ => by
    unfold composeLoop at h
    obtain rfl : _ = ([] : List Placed) := by simpa using h.symm
    simp
  | p :: rest, size, placed, hdvd, hpos, h, hne, hsimg => by
    obtain ⟨sp, qs, hc, hrec, rfl⟩ := composeLoop_cons_some h
    have hbne : (if sp then simg (fs p.path) else fs p.path) ≠ [] := by
      have h1 : fs p.path ≠ [] := hne p (List.mem_cons_self p rest)
      cases sp
      · simpa using h1
      · simpa using hsimg _ h1
    have hlen1 : 1 ≤ (if sp then simg (fs p.path) else fs p.path).length :=
      List.length_pos.mpr hbne
    obtain ⟨k, rfl⟩ := hdvd
    have hk1 : 1 ≤ k := by
      by_contra hk
      have : k = 0 := by omega
      rw [this, Nat.mul_zero] at hpos
      exact absurd hpos (by omega)
    have hc1 : 1 ≤ ceilMiB (if sp then simg (fs p.path) else fs p.path).length := by
      simp only [ceilMiB, MiB]
      omega
    rw [ddSizeAfter_aligned hlen1] at hrec
    obtain ⟨ihq, ihchain⟩ :=
      composeLoop_bounds (Dvd.intro _ rfl)
        (Nat.mul_pos (by norm_num [MiB]) (by omega)) hrec
        (fun q hq => hne q (List.mem_cons_of_mem p hq)) hsimg
    rw [ddSizeAfter_aligned hlen1]
    refine ⟨?_, ?_⟩
    · intro q hq
      rcases List.mem_cons.mp hq with rfl | hq
      · dsimp only
        constructor
        · simp only [MiB] at hc1 ⊢
          omega
        · exact Nat.le_refl _
      · obtain ⟨h1, h2⟩ := ihq q hq
        refine ⟨h1, le_trans ?_ h2⟩
        exact Nat.div_le_div_right (Nat.mul_le_mul_left _ (by omega))
    · refine List.chain'_cons'.mpr ⟨?_, ihchain⟩
      intro y hy
      have h2 := (ihq y (List.mem_of_mem_head? hy)).2
      dsimp only
      simp only [MiB] at h2 ⊢
      omega

/-- C3: on the general composition path, when every source file (and its
materialized raw image, per the `simg2img` collaborator contract that a
non-empty sparse image converts to a non-empty raw image) is non-empty,
every placement satisfies `startSector ≤ endSector` and consecutive
placements taken in composition order have strictly increasing,
non-overlapping sector ranges. -/
theorem c3_no_overlap (fs : Str → List Nat) (simg : List Nat → List Nat)
    (ps : List Partition) (placed : List Placed)
    (h : composeLoop fs simg ps MiB = some placed)
    (hne : ∀ p ∈ ps, fs p.path ≠ [])
    (hsimg : ∀ l, l ≠ [] → simg l ≠ []) :
    (∀ q ∈ placed, q.start ≤ q.endS) ∧
    List.Chain' (fun a b => a.endS < b.start) placed := by
  obtain ⟨h1, h2⟩ :=
    composeLoop_bounds (dvd_refl MiB) (by norm_num [MiB]) h hne hsimg
  exact ⟨fun q hq => (h1 q hq).1, h2⟩

/-- Witness for C3 on the concrete two-partition run. -/
theorem c3_no_overlap_witness :
    composeLoop fsW simgW psW MiB = some placedW ∧
    (∀ p ∈ psW, fsW p.path ≠ []) ∧
    (∀ l, l ≠ [] → simgW l ≠ []) ∧
    ((∀ q ∈ placedW, q.start ≤ q.endS) ∧
     List.Chain' (fun a b => a.endS < b.start) placedW) :=
  ⟨rfl, by decide, fun _ _ => by simp [simgW],
    c3_no_overlap fsW simgW psW placedW rfl (by decide)
      (fun _ _ => by simp [simgW])⟩

/-- Destructor for a successful `parse_input`. -/
theorem parse_input_ok {sz : Str → Nat} {lines : List Str} {ps : List Partition}
    (h : parse_input sz lines = .ok ps) :
    ∃ l, parseDirectives sz lines.length (directives lines) [] = .ok l ∧
      ps = List.insertionSort numLE l := by
  unfold parse_input at h
  cases hpd : parseDirectives sz lines.length (directives lines) [] with
  | error e => rw [hpd] at h; dsimp only at h; exact absurd h (by simp)
  | ok l => rw [hpd] at h; dsimp only at h; exact ⟨l, rfl, by simpa using h.symm⟩

/-- From a `Forall₂` relation, each right element has a related left
element. -/
theorem forall₂_exists_left {α β : Type _} {R : α → β → Prop} :
    ∀ {as : List α} {bs : List β}, List.Forall₂ R as bs →
      ∀ b ∈ bs, ∃ a ∈ as, R a b
  | _, _, .nil, b, hb => absurd hb (List.not_mem_nil b)
  | _, _, .cons h t, b, hb => by
    rcases List.mem_cons.mp hb with rfl | hb
    · exact ⟨_, List.mem_cons_self _ _, h⟩
    · obtain ⟨a, ha, hr⟩ := forall₂_exists_left t b hb
      exact ⟨a, List.mem_cons_of_mem _ ha, hr⟩

/-- From a `Forall₂` relation, each left element has a related right
element. -/
theorem forall₂_exists_right {α β : Type _} {R : α → β → Prop} :
    ∀ {as : List α} {bs : List β}, List.Forall₂ R as bs →
      ∀ a ∈ as, ∃ b ∈ bs, R a b
  | _, _, .nil, a, ha => absurd ha (List.not_mem_nil a)
  | _, _, .cons h t, a, ha => by
    rcases List.mem_cons.mp ha with rfl | ha
    · exact ⟨_, List.mem_cons_self _ _, h⟩
    · obtain ⟨b, hb, hr⟩ := forall₂_exists_right t a ha
      exact ⟨b, List.mem_cons_of_mem _ hb, hr⟩

/-- C1: on the general path, after the table clear the program issues
exactly one `addPartitionTableEntry` per manifest partition — one entry per
directive line, in ascending partition-number order, each carrying the
partition's number, verbatim label, recorded start/end sectors, and type
code 8300 — so the (number, label) pairs written to the GPT are exactly
those declared by the manifest's directives. -/
theorem c1_table_writes (fs : Str → List Nat) (simg : List Nat → List Nat)
    (lines : List Str) (ps : List Partition) (placed : List Placed)
    (h1 : parse_input (fun p => (fs p).length) lines = .ok ps)
    (h2 : composeLoop fs simg ps MiB = some placed) :
    writeTable placed = .clear :: placed.map entryOf ∧
    placed.map (fun q => q.part) = ps ∧
    placed.length = (directives lines).length ∧
    List.Chain' (· < ·) (placed.map (fun q => q.part.num)) ∧
    (∀ n lab, (∃ s e, TableOp.addEntry n lab s e 8300 ∈ writeTable placed) ↔
      ∃ d ∈ directives lines, pyInt? d.2.2 = some n ∧ d.2.1 = lab) := by
  obtain ⟨l, hpd, rfl⟩ := parse_input_ok h1
  have hparts := composeLoop_parts h2
  have hf₂ := parseDirectives_ok_forall₂ hpd
  have hnodup := (parseDirectives_ok_nums hpd).2
  refine ⟨rfl, hparts, ?_, ?_, ?_⟩
  · calc placed.length
        = (placed.map (fun q => q.part)).length := (List.length_map _ _).symm
      _ = (List.insertionSort numLE l).length := by rw [hparts]
      _ = l.length := List.length_insertionSort _ _
      _ = (directives lines).length := hf₂.length_eq.symm
  · have hsorted : List.Sorted numLE (List.insertionSort numLE l) :=
      List.sorted_insertionSort numLE l
    have hperm : (List.insertionSort numLE l).Perm l :=
      List.perm_insertionSort numLE l
    have hnodup' : ((List.insertionSort numLE l).map (fun p => p.num)).Nodup :=
      hnodup.perm (hperm.map (fun p => p.num)).symm
    have hmapeq : placed.map (fun q => q.part.num) =
        (List.insertionSort numLE l).map (fun p => p.num) := by
      rw [← hparts, List.map_map]
      rfl
    rw [hmapeq, List.chain'_iff_pairwise]
    have hp1 : List.Pairwise (fun a b : Int => a ≤ b)
        ((List.insertionSort numLE l).map (fun p => p.num)) :=
      List.pairwise_map.mpr hsorted
    exact (hp1.and hnodup').imp (fun h => lt_of_le_of_ne h.1 h.2)
  · intro n lab
    constructor
    · rintro ⟨s, e, hmem⟩
      rcases List.mem_cons.mp hmem with hclear | hmem
      · exact absurd hclear (by simp)
      · obtain ⟨q, hq, hqe⟩ := List.mem_map.mp hmem
        unfold entryOf at hqe
        injection hqe with e₁ e₂ e₃ e₄ e₅
        have hql : q.part ∈ l := by
          have : q.part ∈ List.insertionSort numLE l := by
            rw [← hparts]
            exact List.mem_map_of_mem _ hq
          exact (List.mem_insertionSort numLE).mp this
        obtain ⟨d, hd, hdr⟩ := forall₂_exists_left hf₂ q.part hql
        refine ⟨d, hd, ?_, ?_⟩
        · rw [hdr.2.1, e₁]
        · have h3 : q.part.label = d.2.1 := by rw [hdr.1]; exact rfl
          rw [← e₂, h3]
    · rintro ⟨d, hd, hpy, hlab⟩
      obtain ⟨p, hpl, hpr⟩ := forall₂_exists_right hf₂ d hd
      have hpn : p.num = n := by
        rw [hpr.2.1] at hpy
        exact Option.some.inj hpy
      have hplab : p.label = lab := by
        have h3 : p.label = d.2.1 := by rw [hpr.1]; exact rfl
        rw [h3, hlab]
      have hps : p ∈ List.insertionSort numLE l :=
        (List.mem_insertionSort numLE).mpr hpl
      rw [← hparts] at hps
      obtain ⟨q, hq, hqp⟩ := List.mem_map.mp hps
      have hent : entryOf q = TableOp.addEntry n lab q.start q.endS 8300 := by
        unfold entryOf
        rw [hqp, hpn, hplab]
      refine ⟨q.start, q.endS, ?_⟩
      rw [← hent]
      exact List.mem_cons_of_mem _ (List.mem_map_of_mem _ hq)

/-- Witness for C1 on the concrete two-partition run. -/
theorem c1_table_writes_witness :
    parse_input (fun p => (fsW p).length) linesW = .ok psW ∧
    composeLoop fsW simgW psW MiB = some placedW ∧
    (writeTable placedW = .clear :: placedW.map entryOf ∧
     placedW.map (fun q => q.part) = psW ∧
     placedW.length = (directives linesW).length ∧
     List.Chain' (· < ·) (placedW.map (fun q => q.part.num)) ∧
     (∀ n lab, (∃ s e, TableOp.addEntry n lab s e 8300 ∈ writeTable placedW) ↔
       ∃ d ∈ directives linesW, pyInt? d.2.2 = some n ∧ d.2.1 = lab)) :=
  ⟨rfl, rfl, c1_table_writes fsW simgW linesW psW placedW rfl rfl⟩

/-- Characterization of the `PartitionNumberOutOfRange` abort: the directive
scan ends with `outOfRange n` exactly when some directive's number parses to
the out-of-range `n` and every earlier directive was accepted (parsed,
in-range, no duplicate). -/
theorem parseDirectives_outOfRange_iff (sz : Str → Nat) (total : Nat)
    (ds : List (Str × Str × Str)) :
    ∀ (used : List Int) (n : Int),
      parseDirectives sz total ds used = .error (.outOfRange n) ↔
      ∃ pre d post, ds = pre ++ d :: post ∧
        (∃ l, parseDirectives sz total pre used = .ok l) ∧
        pyInt? d.2.2 = some n ∧ ((total : Int) < n ∨ n < 0) := by
  induction ds with
  | nil =>
    intro used n
    constructor
    · intro h
      exact absurd h (by unfold parseDirectives; simp)
    · rintro ⟨pre, d, post, heq, -⟩
      exact absurd heq (by simp)
  | cons d₀ rest ih =>
    intro used n
    constructor
    · intro h
      unfold parseDirectives at h
      cases hpy : pyInt? d₀.2.2 with
      | none => rw [hpy] at h; dsimp only at h; exact absurd h (by simp)
      | some m =>
        rw [hpy] at h
        dsimp only at h
        by_cases hr : (total : Int) < m ∨ m < 0
        · rw [if_pos hr] at h
          obtain rfl : m = n := by simpa using h
          exact ⟨[], d₀, rest, rfl, ⟨[], rfl⟩, hpy, hr⟩
        · rw [if_neg hr] at h
          by_cases hu : m ∈ used
          · rw [if_pos hu] at h
            exact absurd h (by simp)
          · rw [if_neg hu] at h
            cases hrec : parseDirectives sz total rest (m :: used) with
            | error e =>
              rw [hrec] at h
              dsimp only at h
              have he : e = .outOfRange n := by simpa using h
              rw [he] at hrec
              obtain ⟨pre, d, post, hds, ⟨l0, hok⟩, hpy2, hr2⟩ :=
                (ih (m :: used) n).mp hrec
              exact ⟨d₀ :: pre, d, post, by simp [hds],
                ⟨mkPartition sz d₀ m :: l0,
                  parseDirectives_cons_ok_of hpy hr hu hok⟩, hpy2, hr2⟩
            | ok ps =>
              rw [hrec] at h
              dsimp only at h
              exact absurd h (by simp)
    · rintro ⟨pre, d, post, hds, ⟨l0, hok⟩, hpy2, hr2⟩
      cases pre with
      | nil =>
        obtain ⟨h1, h2⟩ : d₀ = d ∧ rest = post := by
          constructor <;> injection hds
        subst h1
        subst h2
        unfold parseDirectives
        rw [hpy2]
        dsimp only
        rw [if_pos hr2]
      | cons p₀ preRest =>
        obtain ⟨h1, hrest⟩ : d₀ = p₀ ∧ rest = preRest ++ d :: post := by
          constructor <;> injection hds
        subst h1
        obtain ⟨m, ps0, hpy0, hr0, hu0, hok2, -⟩ := parseDirectives_cons_ok hok
        unfold parseDirectives
        rw [hpy0]
        dsimp only
        rw [if_neg hr0, if_neg hu0]
        have hpd : parseDirectives sz total rest (m :: used) =
            .error (.outOfRange n) :=
          (ih (m :: used) n).mpr ⟨preRest, d, post, hrest, ⟨ps0, hok2⟩, hpy2, hr2⟩
        rw [hpd]

/-- `parse_input` propagates the directive scan's errors unchanged. -/
theorem parse_input_outOfRange_iff (sz : Str → Nat) (lines : List Str)
    (n : Int) :
    parse_input sz lines = .error (.outOfRange n) ↔
    parseDirectives sz lines.length (directives lines) [] =
      .error (.outOfRange n) := by
  unfold parse_input
  cases hpd : parseDirectives sz lines.length (directives lines) [] with
  | error e => exact Iff.rfl
  | ok l => dsimp only; simp

/-- C7 counterexample: in the 3-line manifest `linesC7`, the third directive
declares the out-of-range number 9, yet parsing aborts with the duplicate
error for its second directive, so "aborts with `PartitionNumberOutOfRange`"
is not equivalent to "some directive's number is negative or exceeds the
total line count". -/
theorem c7_exactly_when_counterexample :
    ¬((∃ n : Int, parse_input szZero linesC7 = .error (.outOfRange n)) ↔
      (∃ d ∈ directives linesC7, ∃ n : Int, pyInt? d.2.2 = some n ∧
        ((linesC7.length : Int) < n ∨ n < 0))) := by
  intro h
  obtain ⟨n, hn⟩ := h.mpr
    ⟨("e".toList, "f".toList, "9".toList), by decide, 9, by decide, by decide⟩
  rw [show parse_input szZero linesC7 = .error (.duplicate 1) from rfl] at hn
  simp at hn

/-- C7 (amended): parsing aborts with `PartitionNumberOutOfRange n` exactly
when some directive's number parses to `n` with `n` negative or exceeding
the raw total line count of the manifest and every earlier directive is
accepted (each earlier abort wins instead); in particular a manifest whose
single line declares number 5 aborts with this error. -/
theorem c7_first_out_of_range :
    (∀ (sz : Str → Nat) (lines : List Str) (n : Int),
      parse_input sz lines = .error (.outOfRange n) ↔
      ∃ pre d post, directives lines = pre ++ d :: post ∧
        (∃ l, parseDirectives sz lines.length pre [] = .ok l) ∧
        pyInt? d.2.2 = some n ∧ ((lines.length : Int) < n ∨ n < 0)) ∧
    (∀ sz : Str → Nat, parse_input sz ["a b 5".toList] = .error (.outOfRange 5)) := by
  constructor
  · intro sz lines n
    rw [parse_input_outOfRange_iff]
    exact parseDirectives_outOfRange_iff sz lines.length (directives lines) [] n
  · intro sz
    rfl

end MkCombinedImg
